import Mathlib

/-!
Shallow embedding of the stigmergic coordination board
(`src/stigmergic_coordination.py`): the `Signal` record, the
`StigmergicBoard` operations `deposit_signal`, `read_signals`,
`decay_signals`, the persistence round trip (`save_signals` /
`load_signals`), and the agent-side `select_approach` walk.

Numeric values (`strength`, `success_metric`, timestamps) are embedded as
rationals.  The transcendental `math.exp` is embedded as an abstract
parameter `dexp : ℚ → ℚ`; theorems that need facts about the exponential
(`exp 0 = 1`, `exp x ≥ 0`, `exp x ≤ 1` for `x ≤ 0`) take them as explicit
hypotheses.  Calls to `time.time()` are embedded as an explicit `now`
argument threaded through each operation.
-/

namespace Stigmergy

/-- A signal deposited on the stigmergic board (the `Signal` dataclass). -/
structure Signal where
  task_id : String
  approach : String
  strength : ℚ
  timestamp : ℚ
  deposited_by : String
  success_metric : ℚ
deriving DecidableEq

/-- Signal age in seconds (`Signal.age`): `time.time() - self.timestamp`. -/
def Signal.age (s : Signal) (now : ℚ) : ℚ :=
  now - s.timestamp

/-- Current strength after decay (`Signal.decayed_strength`):
`self.strength * exp(-age_seconds / decay_rate)`, with `exp` abstracted
as `dexp`. -/
def Signal.decayed_strength (dexp : ℚ → ℚ) (s : Signal) (decay_rate : ℚ) (now : ℚ) : ℚ :=
  s.strength * dexp (-(s.age now) / decay_rate)

/-- The in-memory state of a `StigmergicBoard`: its configuration
parameters and the signal map `self.signals : Dict[str, List[Signal]]`,
embedded as an insertion-ordered association list (Python dicts preserve
insertion order). -/
structure StigmergicBoard where
  decay_rate : ℚ
  amplification_factor : ℚ
  attenuation_factor : ℚ
  signals : List (String × List Signal)
deriving DecidableEq

/-- Lookup of `self.signals[task_id]` under defaultdict semantics: a
missing key reads as the empty list. -/
def getTask : List (String × List Signal) → String → List Signal
  | [], _ => []
  | p :: rest, t => if p.1 = t then p.2 else getTask rest t

/-- Membership test `task_id in self.signals`. -/
def containsTask : List (String × List Signal) → String → Bool
  | [], _ => false
  | p :: rest, t => if p.1 = t then true else containsTask rest t

/-- Store a task's signal list back into the map: an existing key is
updated in place (keeping its position), a new key is appended at the end
(Python dict insertion order). -/
def setTask : List (String × List Signal) → String → List Signal → List (String × List Signal)
  | [], t, l => [(t, l)]
  | p :: rest, t, l => if p.1 = t then (t, l) :: rest else p :: setTask rest t l

/-- The linear scan in `deposit_signal` that finds the first signal of the
task with the given approach. -/
def findSignal : List Signal → String → Option Signal
  | [], _ => none
  | s :: rest, a => if s.approach = a then some s else findSignal rest a

/-- In-place mutation of the first signal with the given approach (the
`existing_signal` object found by the scan). -/
def updateFirst (f : Signal → Signal) : List Signal → String → List Signal
  | [], _ => []
  | s :: rest, a => if s.approach = a then f s :: rest else s :: updateFirst f rest a

/-- The mutation `deposit_signal` applies to an existing signal:
amplify when the depositor is the original depositor or
`success_metric > 0.7`, attenuate otherwise; then clamp at 100, reset the
timestamp and exponentially smooth the success metric. -/
def depositExisting (b : StigmergicBoard) (dexp : ℚ → ℚ) (now : ℚ)
    (success_metric : ℚ) (agent_id : String) (sig : Signal) : Signal :=
  let initial_strength := success_metric * 100
  let current_strength := Signal.decayed_strength dexp sig b.decay_rate now
  let new_strength :=
    if sig.deposited_by = agent_id ∨ (7 : ℚ)/10 < success_metric then
      current_strength + initial_strength * b.amplification_factor
    else
      current_strength * b.attenuation_factor
  { sig with
      strength := min new_strength 100
      timestamp := now
      success_metric := sig.success_metric * (7/10) + success_metric * (3/10) }

/-- The board operation `deposit_signal(task_id, approach, success_metric,
agent_id)`, with the wall-clock reading and the exponential passed
explicitly. -/
def deposit_signal (b : StigmergicBoard) (dexp : ℚ → ℚ) (now : ℚ)
    (task_id approach : String) (success_metric : ℚ) (agent_id : String) : StigmergicBoard :=
  let lst := getTask b.signals task_id
  match findSignal lst approach with
  | some _ =>
      let updated := updateFirst (depositExisting b dexp now success_metric agent_id) lst approach
      { b with signals := setTask b.signals task_id updated }
  | none =>
      let sig : Signal :=
        { task_id := task_id
          approach := approach
          strength := success_metric * 100
          timestamp := now
          deposited_by := agent_id
          success_metric := success_metric }
      { b with signals := setTask b.signals task_id (lst ++ [sig]) }

/-- One annotated entry of the list returned by `read_signals` (the dict
built per surviving signal). -/
structure SignalView where
  approach : String
  strength : ℚ
  success_metric : ℚ
  age_hours : ℚ
  from_self : Bool
deriving DecidableEq

/-- The annotation `read_signals` builds for one signal. -/
def signalView (dexp : ℚ → ℚ) (decay_rate now : ℚ) (agent_id : String) (s : Signal) : SignalView :=
  { approach := s.approach
    strength := Signal.decayed_strength dexp s decay_rate now
    success_metric := s.success_metric
    age_hours := s.age now / 3600
    from_self := decide (s.deposited_by = agent_id) }

/-- The comparison used to embed Python's stable
`sort(key=strength, reverse=True)`. -/
def strengthGE (x y : SignalView) : Bool :=
  decide (y.strength ≤ x.strength)

/-- The board operation `read_signals(task_id, agent_id)`: keep the task's
signals whose decayed strength exceeds 1.0, annotate them, and stable-sort
by decayed strength descending. -/
def read_signals (b : StigmergicBoard) (dexp : ℚ → ℚ) (now : ℚ)
    (task_id agent_id : String) : List SignalView :=
  if containsTask b.signals task_id then
    ((((getTask b.signals task_id).filter
        (fun s => decide ((1 : ℚ) < Signal.decayed_strength dexp s b.decay_rate now))).map
      (signalView dexp b.decay_rate now agent_id)).mergeSort strengthGE)
  else []

/-- The board operation `decay_signals()`: drop every signal whose decayed
strength is at most 1.0, then drop every task entry left empty. -/
def decay_signals (b : StigmergicBoard) (dexp : ℚ → ℚ) (now : ℚ) : StigmergicBoard :=
  let pruned :=
    (b.signals.map (fun p =>
      (p.1, p.2.filter
        (fun s => decide ((1 : ℚ) < Signal.decayed_strength dexp s b.decay_rate now))))).filter
      (fun p => !p.2.isEmpty)
  { b with signals := pruned }

/-- One record of the persisted JSON layout, as written by
`asdict(sig)` in `_save_signals`: the six fields of the dataclass. -/
structure SignalRecord where
  task_id : String
  approach : String
  strength : ℚ
  timestamp : ℚ
  deposited_by : String
  success_metric : ℚ
deriving DecidableEq

/-- Serialization of one signal (`asdict`). -/
def recordOfSignal (s : Signal) : SignalRecord :=
  { task_id := s.task_id
    approach := s.approach
    strength := s.strength
    timestamp := s.timestamp
    deposited_by := s.deposited_by
    success_metric := s.success_metric }

/-- Deserialization of one record (`Signal(**sig_data)`). -/
def signalOfRecord (r : SignalRecord) : Signal :=
  { task_id := r.task_id
    approach := r.approach
    strength := r.strength
    timestamp := r.timestamp
    deposited_by := r.deposited_by
    success_metric := r.success_metric }

/-- The persisted layout written by `_save_signals`: one entry per
task_id, each holding the task's signal records in order. -/
def save_signals (m : List (String × List Signal)) : List (String × List SignalRecord) :=
  m.map (fun p => (p.1, p.2.map recordOfSignal))

/-- Decoding of one task's persisted record list, as run by
`[Signal(**sig_data) for sig_data in signal_list]`: a record parsed from
the file is embedded as `Option SignalRecord`, where `none` models a
malformed record (one on which `Signal(**sig_data)` raises); a single
malformed record makes the whole task's decoding raise (`none`). -/
def decodeRecords : List (Option SignalRecord) → Option (List Signal)
  | [] => some []
  | none :: _ => none
  | some r :: rest =>
      match decodeRecords rest with
      | some sigs => some (signalOfRecord r :: sigs)
      | none => none

/-- The load loop of `_load_signals`: tasks are processed in file order;
the first task whose records raise aborts the loop (the whole load is
wrapped in one try/except), keeping only the tasks already assigned. -/
def loadLoop : List (String × List (Option SignalRecord)) → List (String × List Signal)
  | [] => []
  | (t, recs) :: rest =>
      match decodeRecords recs with
      | some sigs => (t, sigs) :: loadLoop rest
      | none => []

/-- The startup load `_load_signals`: `none` models a missing file (or a
file `json.load` cannot parse at all), which leaves the store empty;
otherwise the load loop runs under the single try/except. -/
def load_signals : Option (List (String × List (Option SignalRecord))) → List (String × List Signal)
  | none => []
  | some file => loadLoop file

/-- The cumulative-sum loop of `StigmergicAgent.select_approach`:
`cumulative += strength; if rand <= cumulative: return approach`.
Returns `none` when the loop falls through. -/
def selectLoop : List SignalView → ℚ → ℚ → Option String
  | [], _, _ => none
  | v :: rest, rand, cumulative =>
      let c := cumulative + v.strength
      if rand ≤ c then some v.approach else selectLoop rest rand c

/-- The agent operation `select_approach`, with the two random draws made
explicit: `randDefault` embeds `random.choice` over the hardcoded default
approaches (taken when no signal is live), and `rand` embeds
`random.uniform(0, total_strength)`.  When the loop falls through, the
source returns `signals[0]['approach']` (the first, highest-strength
entry). -/
def select_approach (signals : List SignalView) (randDefault : String) (rand : ℚ) : String :=
  match signals with
  | [] => randDefault
  | v :: rest =>
      match selectLoop (v :: rest) rand 0 with
      | some a => a
      | none => v.approach

/-- One board mutation, for stating invariants over operation
sequences: a deposit (with its wall-clock reading) or a decay sweep. -/
inductive BoardOp where
  | dep (now : ℚ) (task_id approach : String) (success_metric : ℚ) (agent_id : String)
  | sweep (now : ℚ)
deriving DecidableEq

/-- Apply one operation to the board. -/
def applyOp (dexp : ℚ → ℚ) (b : StigmergicBoard) : BoardOp → StigmergicBoard
  | .dep now t a sm ag => deposit_signal b dexp now t a sm ag
  | .sweep now => decay_signals b dexp now

/-- Apply a sequence of operations, oldest first. -/
def applyOps (dexp : ℚ → ℚ) (b : StigmergicBoard) : List BoardOp → StigmergicBoard
  | [] => b
  | op :: rest => applyOps dexp (applyOp dexp b op) rest

/-- An operation is well-formed when any deposited success metric lies in
the unit interval. -/
def OpOK : BoardOp → Prop
  | .dep _ _ _ sm _ => 0 ≤ sm ∧ sm ≤ 1
  | .sweep _ => True

/-- The documented per-signal invariant: strength in [0, 100] and
success metric in [0, 1]. -/
def GoodSignal (s : Signal) : Prop :=
  0 ≤ s.strength ∧ s.strength ≤ 100 ∧ 0 ≤ s.success_metric ∧ s.success_metric ≤ 1

/-- Every signal stored anywhere in the board satisfies `GoodSignal`. -/
def GoodBoard (b : StigmergicBoard) : Prop :=
  ∀ p ∈ b.signals, ∀ s ∈ p.2, GoodSignal s

/-! Helper lemmas about the association-list and scan primitives. -/

theorem getTask_setTask_self (m : List (String × List Signal)) (t : String) (l : List Signal) :
    getTask (setTask m t l) t = l := by
  induction m with
  | nil => simp [setTask, getTask]
  | cons p rest ih =>
      by_cases h : p.1 = t
      · simp [setTask, h, getTask]
      · simp [setTask, h, getTask, ih]

theorem getTask_setTask_ne (m : List (String × List Signal)) (t t' : String) (l : List Signal)
    (h : t' ≠ t) : getTask (setTask m t l) t' = getTask m t' := by
  induction m with
  | nil => simp [setTask, getTask, Ne.symm h]
  | cons p rest ih =>
      by_cases hp : p.1 = t
      · subst hp
        simp [setTask, getTask, Ne.symm h, ih]
      · by_cases hp' : p.1 = t'
        · simp [setTask, hp, getTask, hp', h]
        · simp [setTask, hp, getTask, hp', ih]

theorem findSignal_approach (l : List Signal) (a : String) (s : Signal)
    (h : findSignal l a = some s) : s.approach = a := by
  induction l with
  | nil => simp [findSignal] at h
  | cons x rest ih =>
      by_cases hx : x.approach = a
      · simp [findSignal, hx] at h
        subst h; exact hx
      · simp [findSignal, hx] at h
        exact ih h

theorem findSignal_mem (l : List Signal) (a : String) (s : Signal)
    (h : findSignal l a = some s) : s ∈ l := by
  induction l with
  | nil => simp [findSignal] at h
  | cons x rest ih =>
      by_cases hx : x.approach = a
      · simp [findSignal, hx] at h
        subst h; exact List.mem_cons_self x rest
      · simp [findSignal, hx] at h
        exact List.mem_cons_of_mem x (ih h)

theorem findSignal_updateFirst_self (f : Signal → Signal) (l : List Signal) (a : String)
    (s : Signal) (hf : findSignal l a = some s) (hfa : (f s).approach = a) :
    findSignal (updateFirst f l a) a = some (f s) := by
  induction l with
  | nil => simp [findSignal] at hf
  | cons x rest ih =>
      by_cases hx : x.approach = a
      · simp [findSignal, hx] at hf
        subst hf
        simp [updateFirst, hx, findSignal, hfa]
      · simp [findSignal, hx] at hf
        simp [updateFirst, hx, findSignal, ih hf]

theorem findSignal_updateFirst_ne (f : Signal → Signal) (l : List Signal) (a a' : String)
    (h : a' ≠ a) (hf : ∀ s, (f s).approach = s.approach) :
    findSignal (updateFirst f l a) a' = findSignal l a' := by
  induction l with
  | nil => simp [updateFirst]
  | cons x rest ih =>
      by_cases hx : x.approach = a
      · have hxa' : x.approach ≠ a' := by rw [hx]; exact Ne.symm h
        simp [updateFirst, hx, findSignal, hf x, hxa', Ne.symm h]
      · simp [updateFirst, hx, findSignal, ih]

theorem findSignal_append_of_none (l₁ l₂ : List Signal) (a : String)
    (h : findSignal l₁ a = none) : findSignal (l₁ ++ l₂) a = findSignal l₂ a := by
  induction l₁ with
  | nil => simp
  | cons x rest ih =>
      by_cases hx : x.approach = a
      · simp [findSignal, hx] at h
      · simp [findSignal, hx] at h ⊢
        exact ih h

theorem findSignal_append_of_some (l₁ l₂ : List Signal) (a : String) (s : Signal)
    (h : findSignal l₁ a = some s) : findSignal (l₁ ++ l₂) a = some s := by
  induction l₁ with
  | nil => simp [findSignal] at h
  | cons x rest ih =>
      by_cases hx : x.approach = a
      · simp [findSignal, hx] at h ⊢
        exact h
      · simp [findSignal, hx] at h ⊢
        exact ih h

theorem depositExisting_approach (b : StigmergicBoard) (dexp : ℚ → ℚ) (now sm : ℚ)
    (ag : String) (s : Signal) : (depositExisting b dexp now sm ag s).approach = s.approach := rfl

theorem deposit_signal_decay_rate (b : StigmergicBoard) (dexp : ℚ → ℚ) (now : ℚ)
    (t a : String) (sm : ℚ) (ag : String) :
    (deposit_signal b dexp now t a sm ag).decay_rate = b.decay_rate := by
  cases h : findSignal (getTask b.signals t) a <;> simp [deposit_signal, h]

/-! Demonstration values used by the concrete witnesses: a board with the
source's default parameters, and the constant-one stand-in for the
exponential (its value at 0, the only point the witnesses evaluate it at). -/

/-- Stand-in for `math.exp` valid at zero elapsed time: constantly 1. -/
def expFlat : ℚ → ℚ := fun _ => 1

/-- An empty board with the source's default parameters
(`decay_rate=3600`, `amplification_factor=1.5`, `attenuation_factor=0.7`). -/
def board0 : StigmergicBoard :=
  { decay_rate := 3600, amplification_factor := 3/2, attenuation_factor := 7/10, signals := [] }

/-- The board of Scenario A after `deposit("T1","X",0.9,"a1")` at time 0. -/
def boardA : StigmergicBoard := deposit_signal board0 expFlat 0 "T1" "X" (9/10) "a1"

/-- The scenario-A signal as stored after the first deposit. -/
def sigX : Signal :=
  { task_id := "T1", approach := "X", strength := 90, timestamp := 0,
    deposited_by := "a1", success_metric := 9/10 }

/-- C1: on a deposit over an existing (task_id, approach) signal, if the
depositor is the signal's `deposited_by` or the success metric strictly
exceeds the consensus threshold 0.7, the stored strength becomes
`min(current_decayed_strength + success_metric*100*amplification_factor, 100)`
(the amplify branch of `deposit_signal`), with the timestamp reset and the
success metric exponentially smoothed. -/
theorem deposit_amplify (b : StigmergicBoard) (dexp : ℚ → ℚ) (now : ℚ) (t a : String)
    (sm : ℚ) (agent : String) (s : Signal)
    (hfind : findSignal (getTask b.signals t) a = some s)
    (hcond : s.deposited_by = agent ∨ (7 : ℚ)/10 < sm) :
    findSignal (getTask (deposit_signal b dexp now t a sm agent).signals t) a =
      some { s with
        strength := min (Signal.decayed_strength dexp s b.decay_rate now +
          sm * 100 * b.amplification_factor) 100
        timestamp := now
        success_metric := s.success_metric * (7/10) + sm * (3/10) } := by
  have happ : (depositExisting b dexp now sm agent s).approach = a := by
    rw [depositExisting_approach]
    exact findSignal_approach _ _ _ hfind
  have hupd := findSignal_updateFirst_self (depositExisting b dexp now sm agent)
    (getTask b.signals t) a s hfind happ
  simp only [deposit_signal, hfind, getTask_setTask_self]
  rw [hupd]
  congr 1
  simp only [depositExisting, if_pos hcond]

/-- Witness for C1: Scenario A.  `deposit("T1","X",0.9,"a1")` at time 0
then immediately `deposit("T1","X",0.95,"a1")` leaves the stored strength
at `min(90 + 95*1.5, 100) = 100`. -/
theorem deposit_amplify_witness :
    (findSignal (getTask (deposit_signal boardA expFlat 0 "T1" "X" (19/20) "a1").signals "T1")
      "X").map Signal.strength = some 100 := by
  have hA : getTask boardA.signals "T1" = [sigX] := by
    norm_num [boardA, board0, deposit_signal, getTask, setTask, findSignal, sigX]
  have hfind : findSignal (getTask boardA.signals "T1") "X" = some sigX := by
    rw [hA]; simp [findSignal, sigX]
  have h := deposit_amplify boardA expFlat 0 "T1" "X" (19/20) "a1" sigX hfind (Or.inl rfl)
  rw [h]
  have hrate : boardA.decay_rate = 3600 := by
    rw [boardA, deposit_signal_decay_rate]
    rfl
  have hamp : boardA.amplification_factor = 3/2 := by
    norm_num [boardA, board0, deposit_signal, getTask, setTask, findSignal]
  norm_num [hrate, hamp, Signal.decayed_strength, Signal.age, sigX, expFlat]

/-- The scenario-B signal: an existing signal for ("T1","Y") whose decayed
strength at time 0 is 80, created by agent a1. -/
def sigY : Signal :=
  { task_id := "T1", approach := "Y", strength := 80, timestamp := 0,
    deposited_by := "a1", success_metric := 1/2 }

/-- The scenario-B board: default parameters, one live signal `sigY`. -/
def boardB : StigmergicBoard :=
  { decay_rate := 3600, amplification_factor := 3/2, attenuation_factor := 7/10,
    signals := [("T1", [sigY])] }

/-- Decayed strength of a signal whose timestamp equals the evaluation
time: with `exp 0 = 1` it is the stored strength itself. -/
theorem decayed_at_reset (dexp : ℚ → ℚ) (rate now : ℚ) (s' : Signal)
    (hts : s'.timestamp = now) (hdz : dexp 0 = 1) :
    Signal.decayed_strength dexp s' rate now = s'.strength := by
  simp [Signal.decayed_strength, Signal.age, hts, hdz]

/-- C2: on a deposit over an existing signal by a different agent whose
success metric is at most the consensus threshold 0.7, the stored strength
becomes `current_decayed_strength * attenuation_factor` (default 0.7), and
the resulting decayed strength does not exceed the current decayed
strength.  The hypotheses on `dexp` state the facts about `math.exp` the
source relies on (`exp 0 = 1`, and `0 ≤ exp x ≤ 1` on nonpositive
arguments, i.e. nonnegative elapsed time). -/
theorem deposit_attenuate (b : StigmergicBoard) (dexp : ℚ → ℚ) (now : ℚ) (t a : String)
    (sm : ℚ) (agent : String) (s : Signal)
    (hfind : findSignal (getTask b.signals t) a = some s)
    (hagent : s.deposited_by ≠ agent) (hsm : sm ≤ 7/10)
    (hs0 : 0 ≤ s.strength) (hs100 : s.strength ≤ 100)
    (hatt : b.attenuation_factor = 7/10)
    (hd0 : 0 ≤ dexp (-(Signal.age s now) / b.decay_rate))
    (hd1 : dexp (-(Signal.age s now) / b.decay_rate) ≤ 1)
    (hdz : dexp 0 = 1) :
    ∃ s', findSignal (getTask (deposit_signal b dexp now t a sm agent).signals t) a = some s' ∧
      s'.strength = Signal.decayed_strength dexp s b.decay_rate now * (7/10) ∧
      Signal.decayed_strength dexp s' b.decay_rate now ≤
        Signal.decayed_strength dexp s b.decay_rate now := by
  have happ : (depositExisting b dexp now sm agent s).approach = a := by
    rw [depositExisting_approach]
    exact findSignal_approach _ _ _ hfind
  have hupd := findSignal_updateFirst_self (depositExisting b dexp now sm agent)
    (getTask b.signals t) a s hfind happ
  have hcur0 : 0 ≤ Signal.decayed_strength dexp s b.decay_rate now :=
    mul_nonneg hs0 hd0
  have hcur100 : Signal.decayed_strength dexp s b.decay_rate now ≤ 100 := by
    calc s.strength * dexp (-(Signal.age s now) / b.decay_rate) ≤ 100 * 1 := by
          apply mul_le_mul hs100 hd1 hd0
          norm_num
      _ = 100 := by norm_num
  have hncond : ¬ (s.deposited_by = agent ∨ (7 : ℚ)/10 < sm) := by
    rintro (h | h)
    · exact hagent h
    · exact absurd hsm (not_le.mpr h)
  refine ⟨depositExisting b dexp now sm agent s, ?_, ?_, ?_⟩
  · simp only [deposit_signal, hfind, getTask_setTask_self]
    exact hupd
  · simp only [depositExisting, if_neg hncond, hatt]
    rw [min_eq_left]
    nlinarith
  · have hstr : (depositExisting b dexp now sm agent s).strength =
        min (Signal.decayed_strength dexp s b.decay_rate now * b.attenuation_factor) 100 := by
      simp only [depositExisting, if_neg hncond]
    rw [decayed_at_reset dexp b.decay_rate now _ rfl hdz, hstr, hatt]
    rw [min_eq_left (by nlinarith)]
    nlinarith

/-- Witness for C2: Scenario B.  The existing ("T1","Y") signal has
decayed strength 80 at time 0; `deposit("T1","Y",0.5,"a2")` by the
non-creator a2 with `0.5 ≤ 0.7` stores strength `80 * 0.7 = 56`. -/
theorem deposit_attenuate_witness :
    (findSignal (getTask (deposit_signal boardB expFlat 0 "T1" "Y" (1/2) "a2").signals "T1")
      "Y").map Signal.strength = some 56 := by
  have hfind : findSignal (getTask boardB.signals "T1") "Y" = some sigY := by
    simp [boardB, getTask, findSignal, sigY]
  obtain ⟨s', h1, h2, _⟩ := deposit_attenuate boardB expFlat 0 "T1" "Y" (1/2) "a2" sigY hfind
    (by simp [sigY]) (by norm_num) (by norm_num [sigY]) (by norm_num [sigY]) rfl
    (by norm_num [expFlat]) (by norm_num [expFlat]) rfl
  rw [h1]
  have : s'.strength = 56 := by
    rw [h2]
    norm_num [Signal.decayed_strength, Signal.age, sigY, boardB, expFlat]
  simp [this]

/-- C3: a deposit on a (task_id, approach) pair with no existing signal
appends exactly one new signal, with strength `success_metric * 100`,
timestamp `now`, `deposited_by` the depositing agent and success metric
the deposited one; and a deposit on an existing signal, in either branch,
smooths the success metric to `0.7*old + 0.3*new` and resets the
timestamp. -/
theorem deposit_create_update (b : StigmergicBoard) (dexp : ℚ → ℚ) (now : ℚ) (t a : String)
    (sm : ℚ) (agent : String) :
    (findSignal (getTask b.signals t) a = none →
      getTask (deposit_signal b dexp now t a sm agent).signals t =
        getTask b.signals t ++
          [{ task_id := t, approach := a, strength := sm * 100, timestamp := now,
             deposited_by := agent, success_metric := sm }]) ∧
    (∀ s, findSignal (getTask b.signals t) a = some s →
      ∃ s', findSignal (getTask (deposit_signal b dexp now t a sm agent).signals t) a = some s' ∧
        s'.success_metric = s.success_metric * (7/10) + sm * (3/10) ∧
        s'.timestamp = now ∧ s'.deposited_by = s.deposited_by) := by
  constructor
  · intro hnone
    simp only [deposit_signal, hnone, getTask_setTask_self]
  · intro s hfind
    have happ : (depositExisting b dexp now sm agent s).approach = a := by
      rw [depositExisting_approach]
      exact findSignal_approach _ _ _ hfind
    have hupd := findSignal_updateFirst_self (depositExisting b dexp now sm agent)
      (getTask b.signals t) a s hfind happ
    refine ⟨depositExisting b dexp now sm agent s, ?_, rfl, rfl, rfl⟩
    simp only [deposit_signal, hfind, getTask_setTask_self]
    exact hupd

/-- Witness for C3: a fresh deposit on the empty board creates the single
signal of Scenario A, and a second deposit on it smooths the success
metric to `0.7*0.9 + 0.3*0.5 = 0.78` and resets the timestamp to 1. -/
theorem deposit_create_update_witness :
    getTask (deposit_signal board0 expFlat 0 "T1" "X" (9/10) "a1").signals "T1" =
      [{ task_id := "T1", approach := "X", strength := 90, timestamp := 0,
         deposited_by := "a1", success_metric := 9/10 }] ∧
    ∃ s', findSignal (getTask (deposit_signal boardA expFlat 1 "T1" "X" (1/2) "a9").signals "T1")
        "X" = some s' ∧ s'.success_metric = 39/50 ∧ s'.timestamp = 1 := by
  constructor
  · have h := (deposit_create_update board0 expFlat 0 "T1" "X" (9/10) "a1").1
      (by simp [board0, getTask, findSignal])
    rw [h]
    norm_num [board0, getTask]
  · have hA : getTask boardA.signals "T1" = [sigX] := by
      norm_num [boardA, board0, deposit_signal, getTask, setTask, findSignal, sigX]
    have hfind : findSignal (getTask boardA.signals "T1") "X" = some sigX := by
      rw [hA]; simp [findSignal, sigX]
    obtain ⟨s', h1, h2, h3, _⟩ :=
      (deposit_create_update boardA expFlat 1 "T1" "X" (1/2) "a9").2 sigX hfind
    refine ⟨s', h1, ?_, h3⟩
    rw [h2]
    norm_num [sigX]

/-- The intermediate `signal_data` list of `read_signals`, before the
sort: the task's signals whose decayed strength exceeds 1.0, each
annotated. -/
def liveViews (b : StigmergicBoard) (dexp : ℚ → ℚ) (now : ℚ) (task_id agent_id : String) :
    List SignalView :=
  ((getTask b.signals task_id).filter
    (fun s => decide ((1 : ℚ) < Signal.decayed_strength dexp s b.decay_rate now))).map
    (signalView dexp b.decay_rate now agent_id)

theorem read_signals_eq (b : StigmergicBoard) (dexp : ℚ → ℚ) (now : ℚ) (t agent : String) :
    read_signals b dexp now t agent =
      if containsTask b.signals t then (liveViews b dexp now t agent).mergeSort strengthGE
      else [] := rfl

theorem containsTask_false_getTask (m : List (String × List Signal)) (t : String)
    (h : containsTask m t = false) : getTask m t = [] := by
  induction m with
  | nil => simp [getTask]
  | cons p rest ih =>
      by_cases hp : p.1 = t
      · simp [containsTask, hp] at h
      · simp [containsTask, hp] at h
        simp [getTask, hp, ih h]

theorem strengthGE_trans (x y z : SignalView) (h1 : strengthGE x y) (h2 : strengthGE y z) :
    strengthGE x z := by
  simp only [strengthGE, decide_eq_true_eq] at h1 h2 ⊢
  exact le_trans h2 h1

theorem strengthGE_total (x y : SignalView) : strengthGE x y || strengthGE y x := by
  simp only [strengthGE, Bool.or_eq_true, decide_eq_true_eq]
  exact le_total y.strength x.strength

/-- C4: `read_signals` returns exactly the live signals of the task whose
decayed strength strictly exceeds 1.0, each annotated via `signalView`
(with `from_self` true iff the signal's depositor is the calling agent),
sorted by decayed strength descending; the sort is a permutation of the
filtered list and is stable (any descending-ordered sublist of the
filtered list, in particular any run of equal strengths in first-created
order, survives as a sublist of the result). -/
theorem read_signals_spec (b : StigmergicBoard) (dexp : ℚ → ℚ) (now : ℚ) (t agent : String) :
    (read_signals b dexp now t agent).Pairwise (fun x y => y.strength ≤ x.strength) ∧
    (read_signals b dexp now t agent).Perm (liveViews b dexp now t agent) ∧
    (∀ v ∈ read_signals b dexp now t agent, 1 < v.strength ∧
      ∃ s ∈ getTask b.signals t, 1 < Signal.decayed_strength dexp s b.decay_rate now ∧
        v = signalView dexp b.decay_rate now agent s ∧
        (v.from_self = true ↔ s.deposited_by = agent)) ∧
    (∀ s ∈ getTask b.signals t, 1 < Signal.decayed_strength dexp s b.decay_rate now →
      signalView dexp b.decay_rate now agent s ∈ read_signals b dexp now t agent) ∧
    (∀ l : List SignalView, l.Pairwise (fun x y => y.strength ≤ x.strength) →
      l.Sublist (liveViews b dexp now t agent) → l.Sublist (read_signals b dexp now t agent)) := by
  cases hct : containsTask b.signals t with
  | false =>
      have hnil : getTask b.signals t = [] := containsTask_false_getTask _ _ hct
      have hlv : liveViews b dexp now t agent = [] := by
        simp [liveViews, hnil]
      rw [read_signals_eq, if_neg (by simp [hct]), hlv]
      refine ⟨List.Pairwise.nil, List.Perm.refl _, by simp, by simp [hnil], ?_⟩
      intro l _ hsub
      exact hsub
  | true =>
      rw [read_signals_eq, if_pos (by simp [hct])]
      refine ⟨?_, List.mergeSort_perm _ _, ?_, ?_, ?_⟩
      · have hp := List.sorted_mergeSort strengthGE_trans strengthGE_total
          (liveViews b dexp now t agent)
        exact hp.imp (fun h => by simpa [strengthGE, decide_eq_true_eq] using h)
      · intro v hv
        rw [List.mem_mergeSort] at hv
        simp only [liveViews, List.mem_map, List.mem_filter, decide_eq_true_eq] at hv
        obtain ⟨s, ⟨hmem, hdec⟩, hview⟩ := hv
        refine ⟨?_, s, hmem, hdec, hview.symm, ?_⟩
        · rw [← hview]
          simpa [signalView] using hdec
        · rw [← hview]
          simp [signalView]
      · intro s hmem hdec
        rw [List.mem_mergeSort]
        simp only [liveViews, List.mem_map, List.mem_filter, decide_eq_true_eq]
        exact ⟨s, ⟨hmem, hdec⟩, rfl⟩
      · intro l hpw hsub
        refine List.sublist_mergeSort strengthGE_trans strengthGE_total ?_ hsub
        exact hpw.imp (fun h => by simpa [strengthGE, decide_eq_true_eq] using h)

/-- A live signal of strength 3 for the read/decay witnesses. -/
def sigP : Signal :=
  { task_id := "T2", approach := "P", strength := 3, timestamp := 0,
    deposited_by := "a1", success_metric := 1/2 }

/-- A second live signal of strength 2 deposited by another agent. -/
def sigQ : Signal :=
  { task_id := "T2", approach := "Q", strength := 2, timestamp := 0,
    deposited_by := "a2", success_metric := 1/2 }

/-- A board holding the two live signals under task "T2". -/
def boardR : StigmergicBoard :=
  { decay_rate := 3600, amplification_factor := 3/2, attenuation_factor := 7/10,
    signals := [("T2", [sigP, sigQ])] }

/-- Witness for C4: on the concrete two-signal board, the returned list is
sorted descending, contains the annotated strong signal, and the stability
clause holds at the empty sublist. -/
theorem read_signals_spec_witness :
    (read_signals boardR expFlat 0 "T2" "a1").Pairwise (fun x y => y.strength ≤ x.strength) ∧
    signalView expFlat 3600 0 "a1" sigP ∈ read_signals boardR expFlat 0 "T2" "a1" ∧
    ([] : List SignalView).Sublist (read_signals boardR expFlat 0 "T2" "a1") := by
  have h := read_signals_spec boardR expFlat 0 "T2" "a1"
  refine ⟨h.1, ?_, ?_⟩
  · have hm := h.2.2.2.1 sigP (by simp [boardR, getTask])
      (by norm_num [Signal.decayed_strength, Signal.age, sigP, boardR, expFlat])
    simpa [boardR] using hm
  · exact h.2.2.2.2 [] List.Pairwise.nil (List.nil_sublist _)

/-! Lemmas for the decay sweep. -/

theorem getTask_nil_of_not_mem_keys (m : List (String × List Signal)) (t : String)
    (h : t ∉ m.map Prod.fst) : getTask m t = [] := by
  induction m with
  | nil => simp [getTask]
  | cons p rest ih =>
      simp only [List.map_cons, List.mem_cons, not_or] at h
      have hp : p.1 ≠ t := fun e => h.1 e.symm
      simp [getTask, hp, ih h.2]

theorem keys_prune_subset (m : List (String × List Signal)) (pred : Signal → Bool) :
    ∀ t, t ∈ (((m.map (fun p => (p.1, p.2.filter pred))).filter
      (fun p => !p.2.isEmpty)).map Prod.fst) → t ∈ m.map Prod.fst := by
  intro t ht
  simp only [List.mem_map] at ht ⊢
  obtain ⟨p, hp, hfst⟩ := ht
  rw [List.mem_filter] at hp
  obtain ⟨hp', _⟩ := hp.imp_right id
  rw [List.mem_map] at hp'
  obtain ⟨q, hq, hfq⟩ := hp'
  exact ⟨q, hq, by rw [← hfst, ← hfq]⟩

theorem getTask_prune (m : List (String × List Signal)) (pred : Signal → Bool)
    (hnd : (m.map Prod.fst).Nodup) (t : String) :
    getTask ((m.map (fun p => (p.1, p.2.filter pred))).filter (fun p => !p.2.isEmpty)) t =
      (getTask m t).filter pred := by
  induction m with
  | nil => simp [getTask]
  | cons p rest ih =>
      simp only [List.map_cons, List.nodup_cons] at hnd
      obtain ⟨hkey, hnd'⟩ := hnd
      by_cases hp : p.1 = t
      · subst hp
        by_cases he : p.2.filter pred = []
        · have hdrop : p.1 ∉ rest.map Prod.fst := by
            simpa using hkey
          have : getTask ((rest.map (fun p => (p.1, p.2.filter pred))).filter
              (fun p => !p.2.isEmpty)) p.1 = [] :=
            getTask_nil_of_not_mem_keys _ _
              (fun hm => hdrop (keys_prune_subset rest pred p.1 hm))
          simp [List.filter_cons, he, getTask, this]
        · simp [List.filter_cons, List.isEmpty_iff, he, getTask]
      · by_cases he : p.2.filter pred = []
        · simp [List.filter_cons, he, getTask, hp, ih hnd']
        · simp [List.filter_cons, List.isEmpty_iff, he, getTask, hp, ih hnd']

theorem board_eq_of_fields (x y : StigmergicBoard) (h1 : x.decay_rate = y.decay_rate)
    (h2 : x.amplification_factor = y.amplification_factor)
    (h3 : x.attenuation_factor = y.attenuation_factor)
    (h4 : x.signals = y.signals) : x = y := by
  cases x; cases y; simp_all

/-- C5: the decay sweep retains, for every task, exactly the signals whose
decayed strength at the sweep time exceeds 1.0 (stated for well-formed
boards with no duplicate task keys); it leaves no task entry empty; and
running it a second time at the same instant changes nothing. -/
theorem decay_sweep_spec (b : StigmergicBoard) (dexp : ℚ → ℚ) (now : ℚ) :
    ((b.signals.map Prod.fst).Nodup →
      ∀ t, getTask (decay_signals b dexp now).signals t =
        (getTask b.signals t).filter
          (fun s => decide ((1 : ℚ) < Signal.decayed_strength dexp s b.decay_rate now))) ∧
    (∀ p ∈ (decay_signals b dexp now).signals, p.2 ≠ []) ∧
    decay_signals (decay_signals b dexp now) dexp now = decay_signals b dexp now := by
  refine ⟨fun hnd t => getTask_prune b.signals _ hnd t, ?_, ?_⟩
  · intro p hp
    simp only [decay_signals, List.mem_filter, Bool.not_eq_eq_eq_not, Bool.not_true] at hp
    intro he
    rw [he] at hp
    simp at hp
  · apply board_eq_of_fields
    · rfl
    · rfl
    · rfl
    · have hin : ∀ p ∈ (decay_signals b dexp now).signals,
          (p.1, p.2.filter (fun s => decide ((1 : ℚ) < Signal.decayed_strength dexp s
            (decay_signals b dexp now).decay_rate now))) = id p := by
        intro p hp
        have hrate : (decay_signals b dexp now).decay_rate = b.decay_rate := rfl
        rw [hrate]
        simp only [decay_signals, List.mem_filter, List.mem_map] at hp
        obtain ⟨⟨q, hq, hpq⟩, hne⟩ := hp.imp_left id
        rw [← hpq]
        simp [List.filter_filter]
      have hnem : ∀ p ∈ (decay_signals b dexp now).signals, (!p.2.isEmpty) = true := by
        intro p hp
        simp only [decay_signals, List.mem_filter] at hp
        exact hp.2
      calc (decay_signals (decay_signals b dexp now) dexp now).signals
          = (((decay_signals b dexp now).signals.map (fun p => (p.1, p.2.filter
              (fun s => decide ((1 : ℚ) < Signal.decayed_strength dexp s
                (decay_signals b dexp now).decay_rate now))))).filter
              (fun p => !p.2.isEmpty)) := rfl
        _ = ((decay_signals b dexp now).signals.map id).filter (fun p => !p.2.isEmpty) := by
              rw [List.map_congr_left hin]
        _ = (decay_signals b dexp now).signals := by
              rw [List.map_id]
              exact List.filter_eq_self.mpr hnem

/-- A border-line signal whose decayed strength at time 0 is exactly 1
(not retained by the sweep, which keeps only strictly greater). -/
def sigW : Signal :=
  { task_id := "T2", approach := "W", strength := 1, timestamp := 0,
    deposited_by := "a1", success_metric := 1/2 }

/-- A weak signal whose task entry is deleted entirely by the sweep. -/
def sigZ3 : Signal :=
  { task_id := "T3", approach := "Z", strength := 1/2, timestamp := 0,
    deposited_by := "a1", success_metric := 1/2 }

/-- A board with one surviving signal, one prunable signal and one task
that the sweep deletes entirely. -/
def boardC : StigmergicBoard :=
  { decay_rate := 3600, amplification_factor := 3/2, attenuation_factor := 7/10,
    signals := [("T2", [sigP, sigW]), ("T3", [sigZ3])] }

/-- Witness for C5: sweeping `boardC` at time 0 keeps exactly the strong
signal of "T2", leaves no empty task entry, and a second sweep at the same
instant is a no-op. -/
theorem decay_sweep_spec_witness :
    getTask (decay_signals boardC expFlat 0).signals "T2" = [sigP] ∧
    (∀ p ∈ (decay_signals boardC expFlat 0).signals, p.2 ≠ []) ∧
    decay_signals (decay_signals boardC expFlat 0) expFlat 0 = decay_signals boardC expFlat 0 := by
  have h := decay_sweep_spec boardC expFlat 0
  refine ⟨?_, h.2.1, h.2.2⟩
  have hget : getTask boardC.signals "T2" = [sigP, sigW] := by
    simp [boardC, getTask]
  have hP : decide ((1 : ℚ) < Signal.decayed_strength expFlat sigP boardC.decay_rate 0) = true := by
    rw [decide_eq_true_eq]
    norm_num [Signal.decayed_strength, Signal.age, sigP, boardC, expFlat]
  have hW : decide ((1 : ℚ) < Signal.decayed_strength expFlat sigW boardC.decay_rate 0) = false := by
    rw [decide_eq_false_iff_not]
    norm_num [Signal.decayed_strength, Signal.age, sigW, boardC, expFlat]
  rw [h.1 (by simp [boardC]) "T2", hget]
  simp [List.filter_cons, hP, hW]

/-! Persistence round trip. -/

theorem decodeRecords_save (l : List Signal) :
    decodeRecords ((l.map recordOfSignal).map some) = some l := by
  induction l with
  | nil => rfl
  | cons s rest ih =>
      simp only [List.map_cons, decodeRecords, ih]
      rfl

/-- C6: serializing the signal map to the persisted layout and loading it
back reproduces the identical map: every (task_id, approach, strength,
timestamp, deposited_by, success_metric) tuple, timestamps included, is
restored exactly. -/
theorem save_load_roundtrip (m : List (String × List Signal)) :
    load_signals (some ((save_signals m).map (fun p => (p.1, p.2.map some)))) = m := by
  induction m with
  | nil => rfl
  | cons p rest ih =>
      obtain ⟨t, l⟩ := p
      simp only [save_signals, List.map_cons, load_signals, loadLoop, decodeRecords_save] at ih ⊢
      exact congrArg _ ih

/-- A well-formed persisted record for task "t1". -/
def recA : SignalRecord :=
  { task_id := "t1", approach := "X", strength := 50, timestamp := 0,
    deposited_by := "a1", success_metric := 1/2 }

/-- A well-formed persisted record for task "t2", stored after a
malformed record in the same task entry. -/
def recB : SignalRecord :=
  { task_id := "t2", approach := "Y", strength := 60, timestamp := 0,
    deposited_by := "a2", success_metric := 1/2 }

/-- A well-formed persisted record for task "t3", stored after the
malformed task entry. -/
def recC : SignalRecord :=
  { task_id := "t3", approach := "Z", strength := 70, timestamp := 0,
    deposited_by := "a3", success_metric := 1/2 }

/-- A persisted file whose second task entry contains one malformed
record, followed by well-formed records. -/
def corruptFile : List (String × List (Option SignalRecord)) :=
  [("t1", [some recA]), ("t2", [none, some recB]), ("t3", [some recC])]

/-- Counterexample for C8: on `corruptFile` the load does NOT skip only
the offending record — the whole load aborts at the malformed record, so
the well-formed records of "t2" and of the later task "t3" are lost as
well, contradicting the claim that the remaining records are loaded. -/
theorem load_skip_rest_counterexample :
    load_signals (some corruptFile) = [("t1", [signalOfRecord recA])] ∧
    getTask (load_signals (some corruptFile)) "t2" = [] ∧
    getTask (load_signals (some corruptFile)) "t3" = [] := by
  refine ⟨rfl, ?_, ?_⟩ <;> rfl

/-- C8 as amended: loading never fails fatally — a missing (or
unparseable) persisted file yields the empty store, and a malformed
record aborts the load at its task entry: every task entry before the
first entry containing a malformed record is loaded, and that entry and
all later ones are skipped. -/
theorem load_signals_degraded :
    load_signals none = [] ∧
    ∀ file : List (String × List (Option SignalRecord)),
      load_signals (some file) =
        (file.takeWhile (fun p => (decodeRecords p.2).isSome)).map
          (fun p => (p.1, (decodeRecords p.2).getD [])) := by
  refine ⟨rfl, ?_⟩
  intro file
  induction file with
  | nil => rfl
  | cons p rest ih =>
      obtain ⟨t, recs⟩ := p
      cases hd : decodeRecords recs with
      | none =>
          simp [load_signals, loadLoop, List.takeWhile_cons, hd]
      | some sigs =>
          simp only [load_signals, loadLoop, List.takeWhile_cons, hd] at ih ⊢
          simp [ih, hd]

/-! The weighted selection walk. -/

theorem selectLoop_none_iff (l : List SignalView) (rand : ℚ) : ∀ c : ℚ,
    selectLoop l rand c = none ↔
      ∀ i, i < l.length → c + (((l.take (i+1)).map SignalView.strength).sum) < rand := by
  induction l with
  | nil =>
      intro c
      simp [selectLoop]
  | cons v rest ih =>
      intro c
      by_cases hr : rand ≤ c + v.strength
      · apply iff_of_false
        · simp [selectLoop, hr]
        · intro h
          have h0 := h 0 (by simp)
          simp only [List.take_succ_cons, List.take_zero, List.map_cons, List.map_nil,
            List.sum_cons, List.sum_nil, add_zero] at h0
          linarith
      · simp only [selectLoop, if_neg hr]
        rw [ih (c + v.strength)]
        constructor
        · intro h i hi
          cases i with
          | zero =>
              simp only [List.take_succ_cons, List.take_zero, List.map_cons, List.map_nil,
                List.sum_cons, List.sum_nil, add_zero]
              linarith [not_le.mp hr]
          | succ n =>
              have hn := h n (by simpa using hi)
              simp only [List.take_succ_cons, List.map_cons, List.sum_cons] at hn ⊢
              linarith
        · intro h i hi
          have hn := h (i+1) (by simpa using Nat.succ_lt_succ hi)
          simp only [List.take_succ_cons, List.map_cons, List.sum_cons] at hn
          linarith

theorem selectLoop_some (l : List SignalView) (rand : ℚ) : ∀ (c : ℚ) (i : Nat)
    (hi : i < l.length),
    rand ≤ c + (((l.take (i+1)).map SignalView.strength).sum) →
    (∀ j, j < i → c + (((l.take (j+1)).map SignalView.strength).sum) < rand) →
    selectLoop l rand c = some ((l.get ⟨i, hi⟩).approach) := by
  induction l with
  | nil =>
      intro c i hi
      simp at hi
  | cons v rest ih =>
      intro c i hi hle hlt
      cases i with
      | zero =>
          simp only [List.take_succ_cons, List.take_zero, List.map_cons, List.map_nil,
            List.sum_cons, List.sum_nil, add_zero] at hle
          simp [selectLoop, hle]
      | succ n =>
          have h0 := hlt 0 (Nat.succ_pos n)
          simp only [List.take_succ_cons, List.take_zero, List.map_cons, List.map_nil,
            List.sum_cons, List.sum_nil, add_zero] at h0
          have hr : ¬ rand ≤ c + v.strength := not_le.mpr h0
          simp only [selectLoop, if_neg hr]
          have hle' : rand ≤ (c + v.strength) + (((rest.take (n+1)).map SignalView.strength).sum) := by
            simp only [List.take_succ_cons, List.map_cons, List.sum_cons] at hle
            linarith
          have hlt' : ∀ j, j < n →
              (c + v.strength) + (((rest.take (j+1)).map SignalView.strength).sum) < rand := by
            intro j hj
            have := hlt (j+1) (Nat.succ_lt_succ hj)
            simp only [List.take_succ_cons, List.map_cons, List.sum_cons] at this
            linarith
          exact ih (c + v.strength) n (by simpa using hi) hle' hlt'

/-- C7 as amended: on a non-empty signal list, `select_approach` walks the
list accumulating strengths and returns the first approach whose
cumulative sum reaches or exceeds the draw; when the draw is not consumed
by the walk it returns the FIRST (highest-strength) entry of the list
(`signals[0]`), not the last. -/
theorem select_walk_spec (v : SignalView) (rest : List SignalView) (d : String) (rand : ℚ) :
    (∀ i (hi : i < (v :: rest).length),
      rand ≤ ((((v :: rest).take (i+1)).map SignalView.strength).sum) →
      (∀ j, j < i → ((((v :: rest).take (j+1)).map SignalView.strength).sum) < rand) →
      select_approach (v :: rest) d rand = ((v :: rest).get ⟨i, hi⟩).approach) ∧
    ((∀ i, i < (v :: rest).length →
        ((((v :: rest).take (i+1)).map SignalView.strength).sum) < rand) →
      select_approach (v :: rest) d rand = v.approach) := by
  constructor
  · intro i hi hle hlt
    have h := selectLoop_some (v :: rest) rand 0 i hi (by simpa using hle)
      (by intro j hj; simpa using hlt j hj)
    simp [select_approach, h]
  · intro h
    have h0 : selectLoop (v :: rest) rand 0 = none :=
      (selectLoop_none_iff (v :: rest) rand 0).mpr (by intro i hi; simpa using h i hi)
    simp [select_approach, h0]

/-- The strongest demo entry (strength 70), first in sorted order. -/
def viewA : SignalView :=
  { approach := "approach_A", strength := 70, success_metric := 1/2,
    age_hours := 0, from_self := false }

/-- The weaker demo entry (strength 30), last in sorted order. -/
def viewB : SignalView :=
  { approach := "approach_B", strength := 30, success_metric := 1/2,
    age_hours := 0, from_self := false }

/-- Counterexample for C7: with entries of strengths 70 and 30 and an
unconsumed draw of 101 (> total 100), `select_approach` returns the FIRST
entry "approach_A" (`signals[0]` in the source), not the last
(lowest-strength) entry "approach_B" as the claim states. -/
theorem select_fallback_counterexample :
    (70 : ℚ) + 30 < 101 ∧
    select_approach [viewA, viewB] "approach_C" 101 = "approach_A" ∧
    select_approach [viewA, viewB] "approach_C" 101 ≠
      (([viewA, viewB].getLast?).map SignalView.approach).getD "" := by
  have hsel : select_approach [viewA, viewB] "approach_C" 101 = "approach_A" := by
    norm_num [select_approach, selectLoop, viewA, viewB]
  refine ⟨by norm_num, hsel, ?_⟩
  rw [hsel]
  simp [viewB]

/-- Witness for C7 (amended): with the same entries and a draw of 80, the
walk passes 70 at the first entry and stops at the second, returning
"approach_B"; the cumulative-threshold hypotheses are discharged at this
concrete input. -/
theorem select_walk_spec_witness :
    select_approach [viewA, viewB] "approach_C" 80 = "approach_B" := by
  have h := (select_walk_spec viewA [viewB] "approach_C" 80).1 1 (by norm_num)
    (by norm_num [viewA, viewB])
    (by
      intro j hj
      interval_cases j
      norm_num [viewA])
  simpa [viewB] using h

/-! Membership lemmas for the invariant proof. -/

theorem mem_setTask (m : List (String × List Signal)) (t : String) (l : List Signal)
    (p : String × List Signal) (hp : p ∈ setTask m t l) : p = (t, l) ∨ p ∈ m := by
  induction m with
  | nil => simpa [setTask] using hp
  | cons q rest ih =>
      by_cases hq : q.1 = t
      · simp only [setTask, if_pos hq, List.mem_cons] at hp
        rcases hp with h | h
        · exact Or.inl h
        · exact Or.inr (List.mem_cons_of_mem q h)
      · simp only [setTask, if_neg hq, List.mem_cons] at hp
        rcases hp with h | h
        · exact Or.inr (h ▸ List.mem_cons_self q rest)
        · rcases ih h with h' | h'
          · exact Or.inl h'
          · exact Or.inr (List.mem_cons_of_mem q h')

theorem mem_updateFirst (f : Signal → Signal) (l : List Signal) (a : String) (s : Signal)
    (hs : s ∈ updateFirst f l a) : s ∈ l ∨ ∃ s₀, s₀ ∈ l ∧ s = f s₀ := by
  induction l with
  | nil => simp [updateFirst] at hs
  | cons x rest ih =>
      by_cases hx : x.approach = a
      · simp only [updateFirst, if_pos hx, List.mem_cons] at hs
        rcases hs with h | h
        · exact Or.inr ⟨x, List.mem_cons_self x rest, h⟩
        · exact Or.inl (List.mem_cons_of_mem x h)
      · simp only [updateFirst, if_neg hx, List.mem_cons] at hs
        rcases hs with h | h
        · exact Or.inl (h ▸ List.mem_cons_self x rest)
        · rcases ih h with h' | ⟨s₀, hs₀, he⟩
          · exact Or.inl (List.mem_cons_of_mem x h')
          · exact Or.inr ⟨s₀, List.mem_cons_of_mem x hs₀, he⟩

theorem mem_getTask (m : List (String × List Signal)) (t : String) (s : Signal)
    (hs : s ∈ getTask m t) : ∃ p, p ∈ m ∧ s ∈ p.2 := by
  induction m with
  | nil => simp [getTask] at hs
  | cons q rest ih =>
      by_cases hq : q.1 = t
      · rw [getTask, if_pos hq] at hs
        exact ⟨q, List.mem_cons_self q rest, hs⟩
      · rw [getTask, if_neg hq] at hs
        obtain ⟨p, hp, hsp⟩ := ih hs
        exact ⟨p, List.mem_cons_of_mem q hp, hsp⟩

theorem GoodSignal_depositExisting (b : StigmergicBoard) (dexp : ℚ → ℚ) (now sm : ℚ)
    (ag : String) (s : Signal) (hd : ∀ x, 0 ≤ dexp x)
    (hamp : 0 ≤ b.amplification_factor) (hatt : 0 ≤ b.attenuation_factor)
    (hsm0 : 0 ≤ sm) (hsm1 : sm ≤ 1) (hs : GoodSignal s) :
    GoodSignal (depositExisting b dexp now sm ag s) := by
  obtain ⟨h1, h2, h3, h4⟩ := hs
  have hcur : 0 ≤ Signal.decayed_strength dexp s b.decay_rate now :=
    mul_nonneg h1 (hd _)
  simp only [GoodSignal, depositExisting]
  refine ⟨le_min ?_ (by norm_num), min_le_right _ _, by nlinarith, by nlinarith⟩
  split
  · have : 0 ≤ sm * 100 * b.amplification_factor :=
      mul_nonneg (mul_nonneg hsm0 (by norm_num)) hamp
    exact add_nonneg hcur this
  · exact mul_nonneg hcur hatt

theorem GoodSignal_fresh (t a : String) (now sm : ℚ) (ag : String)
    (hsm0 : 0 ≤ sm) (hsm1 : sm ≤ 1) :
    GoodSignal { task_id := t, approach := a, strength := sm * 100, timestamp := now,
                 deposited_by := ag, success_metric := sm } := by
  simp only [GoodSignal]
  refine ⟨by nlinarith, by nlinarith, hsm0, hsm1⟩

theorem GoodBoard_deposit (b : StigmergicBoard) (dexp : ℚ → ℚ) (now : ℚ) (t a : String)
    (sm : ℚ) (ag : String) (hd : ∀ x, 0 ≤ dexp x)
    (hamp : 0 ≤ b.amplification_factor) (hatt : 0 ≤ b.attenuation_factor)
    (hsm0 : 0 ≤ sm) (hsm1 : sm ≤ 1) (hb : GoodBoard b) :
    GoodBoard (deposit_signal b dexp now t a sm ag) := by
  have hget : ∀ s, s ∈ getTask b.signals t → GoodSignal s := by
    intro s hs
    obtain ⟨p, hp, hsp⟩ := mem_getTask b.signals t s hs
    exact hb p hp s hsp
  intro p hp s hs
  cases hfind : findSignal (getTask b.signals t) a with
  | none =>
      simp only [deposit_signal, hfind] at hp
      rcases mem_setTask _ _ _ _ hp with he | hm
      · rw [he] at hs
        rcases List.mem_append.mp hs with h | h
        · exact hget s h
        · rw [List.mem_singleton.mp h]
          exact GoodSignal_fresh t a now sm ag hsm0 hsm1
      · exact hb p hm s hs
  | some s₀ =>
      simp only [deposit_signal, hfind] at hp
      rcases mem_setTask _ _ _ _ hp with he | hm
      · rw [he] at hs
        rcases mem_updateFirst _ _ _ _ hs with h | ⟨s₁, hs₁, he₁⟩
        · exact hget s h
        · rw [he₁]
          exact GoodSignal_depositExisting b dexp now sm ag s₁ hd hamp hatt hsm0 hsm1
            (hget s₁ hs₁)
      · exact hb p hm s hs

theorem GoodBoard_decay (b : StigmergicBoard) (dexp : ℚ → ℚ) (now : ℚ)
    (hb : GoodBoard b) : GoodBoard (decay_signals b dexp now) := by
  intro p hp s hs
  simp only [decay_signals, List.mem_filter, List.mem_map] at hp
  obtain ⟨⟨q, hq, hpq⟩, _⟩ := hp.imp_left id
  rw [← hpq] at hs
  simp only [List.mem_filter] at hs
  exact hb q hq s hs.1

theorem applyOp_amplification (dexp : ℚ → ℚ) (b : StigmergicBoard) (op : BoardOp) :
    (applyOp dexp b op).amplification_factor = b.amplification_factor := by
  cases op with
  | dep now t a sm ag =>
      cases h : findSignal (getTask b.signals t) a <;> simp [applyOp, deposit_signal, h]
  | sweep now => rfl

theorem applyOp_attenuation (dexp : ℚ → ℚ) (b : StigmergicBoard) (op : BoardOp) :
    (applyOp dexp b op).attenuation_factor = b.attenuation_factor := by
  cases op with
  | dep now t a sm ag =>
      cases h : findSignal (getTask b.signals t) a <;> simp [applyOp, deposit_signal, h]
  | sweep now => rfl

/-- C9: over any sequence of deposit and decay operations whose deposited
success metrics lie in [0, 1], starting from a board satisfying the
documented invariant (and with nonnegative configuration factors and a
nonnegative exponential), every stored signal keeps strength in [0, 100]
and success metric in [0, 1]; since any prefix of such a sequence is such
a sequence, the invariant holds after each operation. -/
theorem invariant_preserved (dexp : ℚ → ℚ) (hd : ∀ x, 0 ≤ dexp x) :
    ∀ (ops : List BoardOp) (b : StigmergicBoard),
      0 ≤ b.amplification_factor → 0 ≤ b.attenuation_factor → GoodBoard b →
      (∀ op ∈ ops, OpOK op) → GoodBoard (applyOps dexp b ops) := by
  intro ops
  induction ops with
  | nil =>
      intro b _ _ hb _
      exact hb
  | cons op rest ih =>
      intro b hamp hatt hb hops
      have hop : OpOK op := hops op (List.mem_cons_self op rest)
      have hrest : ∀ o ∈ rest, OpOK o := fun o ho => hops o (List.mem_cons_of_mem op ho)
      refine ih (applyOp dexp b op) ?_ ?_ ?_ hrest
      · rw [applyOp_amplification]
        exact hamp
      · rw [applyOp_attenuation]
        exact hatt
      · cases op with
        | dep now t a sm ag =>
            exact GoodBoard_deposit b dexp now t a sm ag hd hamp hatt hop.1 hop.2 hb
        | sweep now =>
            exact GoodBoard_decay b dexp now hb

/-- Witness for C9: a deposit with success metric 0.9 followed by a sweep,
from the empty default board, yields a board every signal of which
satisfies the invariant. -/
theorem invariant_preserved_witness :
    GoodBoard (applyOps expFlat board0 [BoardOp.dep 0 "T1" "X" (9/10) "a1", BoardOp.sweep 0]) := by
  refine invariant_preserved expFlat (fun x => by norm_num [expFlat]) _ board0 ?_ ?_ ?_ ?_
  · norm_num [board0]
  · norm_num [board0]
  · intro p hp
    simp [board0] at hp
  · intro op hop
    simp only [List.mem_cons, List.not_mem_nil, or_false] at hop
    rcases hop with rfl | rfl <;> norm_num [OpOK]

/-- C10: a deposit touches at most the single (task_id, approach) signal
it names: the signal list of every other task is unchanged, the lookup of
every other approach of the same task is unchanged, and no signal present
before the deposit disappears. -/
theorem deposit_frame (b : StigmergicBoard) (dexp : ℚ → ℚ) (now : ℚ) (t a : String)
    (sm : ℚ) (agent : String) :
    (∀ t', t' ≠ t →
      getTask (deposit_signal b dexp now t a sm agent).signals t' = getTask b.signals t') ∧
    (∀ a', a' ≠ a →
      findSignal (getTask (deposit_signal b dexp now t a sm agent).signals t) a' =
        findSignal (getTask b.signals t) a') ∧
    (∀ t' a' s, findSignal (getTask b.signals t') a' = some s →
      ∃ s', findSignal (getTask (deposit_signal b dexp now t a sm agent).signals t') a' =
        some s') := by
  have hframe_t : ∀ t', t' ≠ t →
      getTask (deposit_signal b dexp now t a sm agent).signals t' = getTask b.signals t' := by
    intro t' ht
    cases hfind : findSignal (getTask b.signals t) a with
    | none =>
        simp only [deposit_signal, hfind]
        exact getTask_setTask_ne b.signals t t' _ ht
    | some s₀ =>
        simp only [deposit_signal, hfind]
        exact getTask_setTask_ne b.signals t t' _ ht
  have hframe_a : ∀ a', a' ≠ a →
      findSignal (getTask (deposit_signal b dexp now t a sm agent).signals t) a' =
        findSignal (getTask b.signals t) a' := by
    intro a' ha
    cases hfind : findSignal (getTask b.signals t) a with
    | none =>
        simp only [deposit_signal, hfind, getTask_setTask_self]
        cases hf : findSignal (getTask b.signals t) a' with
        | some s => exact findSignal_append_of_some _ _ _ _ hf
        | none =>
            rw [findSignal_append_of_none _ _ _ hf]
            simp [findSignal, Ne.symm ha]
    | some s₀ =>
        simp only [deposit_signal, hfind, getTask_setTask_self]
        exact findSignal_updateFirst_ne _ _ _ _ ha (fun s => rfl)
  refine ⟨hframe_t, hframe_a, ?_⟩
  intro t' a' s hs
  by_cases ht : t' = t
  · subst ht
    by_cases ha : a' = a
    · subst ha
      refine ⟨depositExisting b dexp now sm agent s, ?_⟩
      simp only [deposit_signal, hs, getTask_setTask_self]
      exact findSignal_updateFirst_self _ _ _ _ hs
        (by rw [depositExisting_approach]; exact findSignal_approach _ _ _ hs)
    · exact ⟨s, by rw [hframe_a a' ha]; exact hs⟩
  · exact ⟨s, by rw [hframe_t t' ht]; exact hs⟩

/-- Witness for C10: on the scenario-B board, a deposit on ("T1","Y")
leaves task "T9" and approach "Z" lookups unchanged and keeps a signal at
("T1","Y"). -/
theorem deposit_frame_witness :
    getTask (deposit_signal boardB expFlat 0 "T1" "Y" (1/2) "a2").signals "T9" =
      getTask boardB.signals "T9" ∧
    findSignal (getTask (deposit_signal boardB expFlat 0 "T1" "Y" (1/2) "a2").signals "T1") "Z" =
      findSignal (getTask boardB.signals "T1") "Z" ∧
    ∃ s', findSignal (getTask (deposit_signal boardB expFlat 0 "T1" "Y" (1/2) "a2").signals "T1")
      "Y" = some s' := by
  have h := deposit_frame boardB expFlat 0 "T1" "Y" (1/2) "a2"
  refine ⟨h.1 "T9" (by simp), h.2.1 "Z" (by simp), ?_⟩
  exact h.2.2 "T1" "Y" sigY (by simp [boardB, getTask, findSignal, sigY])

end Stigmergy
